import Mathlib

/-!
Verification of the stochastic block partition baseline
(`partition_baseline_support.py`, `block_merge.py` of the GraphChallenge
repository).

Embedding conventions:
* the inter-block edge-count matrix `M` is a function `Fin B → Fin B → ℤ`
  (numpy integer arrays; updates may drive entries negative, so `ℤ`);
* per-block degree vectors are functions `Fin B → ℤ`;
* the aggregated neighbour-block count arrays `(b_out, count_out)` and
  `(b_in, count_in)` are represented by total functions `Fin B → ℤ` that are
  zero outside the aggregated index set (the code's precondition is that the
  arrays are pre-aggregated by distinct neighbour block, so `count_out` is a
  partial map from block ids to weights, i.e. exactly such a function);
* real-valued entropy computations are over `ℝ` with `Real.log`
  (`0 * log _ = 0` holds definitionally in `ℝ`, matching the code's
  skip-zero-entries convention).
-/

namespace SBP

/-- Structure holding the four replacement vectors produced by the edge-count
update kernels (`utils.edge_count_updates.EdgeCountUpdates`; field names are
the ones read by `compute_delta_entropy` and `update_partition`). -/
structure EdgeCountUpdates (B : ℕ) where
  block_row : Fin B → ℤ
  proposal_row : Fin B → ℤ
  block_col : Fin B → ℤ
  proposal_col : Fin B → ℤ

variable {B : ℕ}

/-- Vertex-move branch (`agg_move = False`) of
`compute_new_rows_cols_interblock_edge_count_matrix`
(`partition_baseline_support.py` lines 178-208; the same arithmetic as the
dense branch of `vertex_reassign_edge_count_updates`, lines 408-429).
`cout j` is the aggregated edge weight from the vertex to block `j`
(`count_out` at the entry of `b_out` equal to `j`, `0` if absent), `cin i`
the aggregated weight from block `i` into the vertex, and `cself` the
vertex's self-loop weight (`count_self`).  The in-place numpy updates
`v[b] -= c`, `v[r] -= x`, `v[s] += x` are rendered pointwise; when `r = s`
the `-=`/`+=` pair at the same cell cancels, exactly as in numpy. -/
def compute_new_rows_cols_interblock_edge_count_matrix
    (M : Fin B → Fin B → ℤ) (r s : Fin B) (cout cin : Fin B → ℤ) (cself : ℤ) :
    EdgeCountUpdates B where
  block_row := fun j =>
    M r j - cout j - (if j = r then cin r else 0) + (if j = s then cin r else 0)
  proposal_row := fun j =>
    M s j + cout j - (if j = r then cin s + cself else 0)
      + (if j = s then cin s + cself else 0)
  block_col := fun i =>
    M i r - cin i - (if i = r then cout r else 0) + (if i = s then cout r else 0)
  proposal_col := fun i =>
    M i s + cin i - (if i = r then cout s + cself else 0)
      + (if i = s then cout s + cself else 0)

/-- Dense branch of `block_merge_edge_count_updates`
(`partition_baseline_support.py` lines 262-277): the `r` row and column are
zeroed, the `s` row and column receive the same arithmetic as in the vertex
move.  Identical to the `agg_move = True` branch of
`compute_new_rows_cols_interblock_edge_count_matrix` (lines 171-177 with
197-206). -/
def block_merge_edge_count_updates
    (M : Fin B → Fin B → ℤ) (r s : Fin B) (cout cin : Fin B → ℤ) (cself : ℤ) :
    EdgeCountUpdates B where
  block_row := fun _ => 0
  proposal_row := fun j =>
    M s j + cout j - (if j = r then cin s + cself else 0)
      + (if j = s then cin s + cself else 0)
  block_col := fun _ => 0
  proposal_col := fun i =>
    M i s + cin i - (if i = r then cout s + cself else 0)
      + (if i = s then cout s + cself else 0)

/-- Matrix part of `update_partition` (`partition_baseline_support.py` lines
816-819): row `r` is overwritten, then row `s`, then column `r`, then column
`s`; a later assignment wins at the intersections, so the final value of an
entry is decided by checking column `s` first, then column `r`, then row `s`,
then row `r`. -/
def update_partition_matrix
    (M : Fin B → Fin B → ℤ) (r s : Fin B) (u : EdgeCountUpdates B) :
    Fin B → Fin B → ℤ :=
  fun i j =>
    if j = s then u.proposal_col i
    else if j = r then u.block_col i
    else if i = s then u.proposal_row j
    else if i = r then u.block_row j
    else M i j

/-- One component of `compute_new_block_degrees`
(`partition_baseline_support.py` lines 470-476): copy the degree vector,
subtract the vertex degree at `r` and add it at `s` (the two updates cancel
when `r = s`, as in the numpy code). -/
def compute_new_block_degree (d : Fin B → ℤ) (r s : Fin B) (k : ℤ) :
    Fin B → ℤ :=
  fun t => d t - (if t = r then k else 0) + (if t = s then k else 0)

/-- Matrix obtained by running the vertex-move kernel and committing its four
vectors with `update_partition`. -/
def moved_matrix (M : Fin B → Fin B → ℤ) (r s : Fin B)
    (cout cin : Fin B → ℤ) (cself : ℤ) : Fin B → Fin B → ℤ :=
  update_partition_matrix M r s
    (compute_new_rows_cols_interblock_edge_count_matrix M r s cout cin cself)

/-- Splitting a sum over all blocks into the `r` entry, the `s` entry and the
rest. -/
lemma sum_split {M₀ : Type*} [AddCommGroup M₀] {r s : Fin B} (hrs : r ≠ s)
    (f : Fin B → M₀) :
    (∑ j, f j) = f r + f s + ∑ j ∈ Finset.univ \ {r, s}, f j := by
  have hsub : ({r, s} : Finset (Fin B)) ⊆ Finset.univ := Finset.subset_univ _
  rw [← Finset.sum_sdiff hsub, Finset.sum_pair hrs]
  abel

lemma sum_ite_single {r : Fin B} (c : ℤ) :
    (∑ t, (if t = r then c else 0)) = c := by
  simp

/-- The sum of a candidate degree vector equals the sum of the old one. -/
lemma sum_compute_new_block_degree (d : Fin B → ℤ) (r s : Fin B) (k : ℤ) :
    (∑ t, compute_new_block_degree d r s k t) = ∑ t, d t := by
  unfold compute_new_block_degree
  rw [Finset.sum_add_distrib, Finset.sum_sub_distrib, sum_ite_single,
    sum_ite_single]
  ring

lemma mem_diff_pair {r s j : Fin B} (hj : j ∈ Finset.univ \ ({r, s} : Finset (Fin B))) :
    j ≠ r ∧ j ≠ s := by
  rcases Finset.mem_sdiff.mp hj with ⟨-, hj2⟩
  constructor
  · intro h; exact hj2 (by simp [h])
  · intro h; exact hj2 (by simp [h])

/-- Row sums of the committed matrix: exact for a vertex without a self-loop
(`cself = 0`); rows `r` and `s` are otherwise off by `∓ cself`. -/
lemma moved_matrix_row_sum (M : Fin B → Fin B → ℤ) (dout : Fin B → ℤ)
    (r s : Fin B) (cout cin : Fin B → ℤ)
    (hdo : ∀ i, dout i = ∑ j, M i j) (hrs : r ≠ s) (i : Fin B) :
    (∑ j, moved_matrix M r s cout cin 0 i j)
      = compute_new_block_degree dout r s (∑ j, cout j) i := by
  by_cases hir : i = r
  · subst hir
    rw [sum_split hrs (fun j => moved_matrix M i s cout cin 0 i j)]
    have h1 : ∀ j ∈ Finset.univ \ ({i, s} : Finset (Fin B)),
        moved_matrix M i s cout cin 0 i j = M i j - cout j := by
      intro j hj
      obtain ⟨hj1, hj2⟩ := mem_diff_pair hj
      simp [moved_matrix, update_partition_matrix,
        compute_new_rows_cols_interblock_edge_count_matrix, hj1, hj2, hrs]
    have hc1 : moved_matrix M i s cout cin 0 i i = M i i - cin i - cout i := by
      simp [moved_matrix, update_partition_matrix,
        compute_new_rows_cols_interblock_edge_count_matrix, hrs]
    have hc2 : moved_matrix M i s cout cin 0 i s = M i s + cin i - cout s := by
      simp [moved_matrix, update_partition_matrix,
        compute_new_rows_cols_interblock_edge_count_matrix, hrs]
    rw [Finset.sum_congr rfl h1, hc1, hc2, Finset.sum_sub_distrib]
    simp only [compute_new_block_degree, if_pos rfl, if_neg hrs, add_zero]
    rw [hdo i, sum_split hrs (fun j => M i j), sum_split hrs cout]
    simp only [ite_true]
    ring
  · by_cases his : i = s
    · subst his
      rw [sum_split hrs (fun j => moved_matrix M r i cout cin 0 i j)]
      have h1 : ∀ j ∈ Finset.univ \ ({r, i} : Finset (Fin B)),
          moved_matrix M r i cout cin 0 i j = M i j + cout j := by
        intro j hj
        obtain ⟨hj1, hj2⟩ := mem_diff_pair hj
        simp [moved_matrix, update_partition_matrix,
          compute_new_rows_cols_interblock_edge_count_matrix, hj1, hj2, hrs,
          Ne.symm hrs]
      have hc1 : moved_matrix M r i cout cin 0 i r = M i r - cin i + cout r := by
        simp [moved_matrix, update_partition_matrix,
          compute_new_rows_cols_interblock_edge_count_matrix, hrs, Ne.symm hrs]
      have hc2 : moved_matrix M r i cout cin 0 i i = M i i + cin i + cout i := by
        simp [moved_matrix, update_partition_matrix,
          compute_new_rows_cols_interblock_edge_count_matrix, hrs, Ne.symm hrs]
      rw [Finset.sum_congr rfl h1, hc1, hc2, Finset.sum_add_distrib]
      simp only [compute_new_block_degree, if_pos rfl, if_neg (Ne.symm hrs),
        sub_zero]
      rw [hdo i, sum_split hrs (fun j => M i j), sum_split hrs cout]
      simp only [ite_true]
      ring
    · rw [sum_split hrs (fun j => moved_matrix M r s cout cin 0 i j)]
      have h1 : ∀ j ∈ Finset.univ \ ({r, s} : Finset (Fin B)),
          moved_matrix M r s cout cin 0 i j = M i j := by
        intro j hj
        obtain ⟨hj1, hj2⟩ := mem_diff_pair hj
        simp [moved_matrix, update_partition_matrix,
          compute_new_rows_cols_interblock_edge_count_matrix, hj1, hj2, hir, his]
      have hc1 : moved_matrix M r s cout cin 0 i r = M i r - cin i := by
        simp [moved_matrix, update_partition_matrix,
          compute_new_rows_cols_interblock_edge_count_matrix, hrs, hir, his]
      have hc2 : moved_matrix M r s cout cin 0 i s = M i s + cin i := by
        simp [moved_matrix, update_partition_matrix,
          compute_new_rows_cols_interblock_edge_count_matrix, hrs, hir, his]
      rw [Finset.sum_congr rfl h1, hc1, hc2]
      simp only [compute_new_block_degree, if_neg hir, if_neg his, sub_zero,
        add_zero]
      rw [hdo i, sum_split hrs (fun j => M i j)]
      ring

/-- Column sums of the committed matrix match the candidate in-degrees
(this part holds even with a self-loop). -/
lemma moved_matrix_col_sum (M : Fin B → Fin B → ℤ) (din : Fin B → ℤ)
    (r s : Fin B) (cout cin : Fin B → ℤ) (cself : ℤ)
    (hdi : ∀ j, din j = ∑ i, M i j) (hrs : r ≠ s) (j : Fin B) :
    (∑ i, moved_matrix M r s cout cin cself i j)
      = compute_new_block_degree din r s (∑ i, cin i) j := by
  by_cases hjr : j = r
  · subst hjr
    have h1 : ∀ i, moved_matrix M j s cout cin cself i j
        = M i j - cin i - (if i = j then cout j else 0)
          + (if i = s then cout j else 0) := by
      intro i
      simp [moved_matrix, update_partition_matrix,
        compute_new_rows_cols_interblock_edge_count_matrix, hrs]
    rw [Finset.sum_congr rfl (fun i _ => h1 i), Finset.sum_add_distrib,
      Finset.sum_sub_distrib, Finset.sum_sub_distrib, sum_ite_single,
      sum_ite_single]
    simp only [compute_new_block_degree, if_pos rfl, if_neg hrs, add_zero]
    rw [hdi j]
    simp only [ite_true]
    ring
  · by_cases hjs : j = s
    · subst hjs
      have h1 : ∀ i, moved_matrix M r j cout cin cself i j
          = M i j + cin i - (if i = r then cout j + cself else 0)
            + (if i = j then cout j + cself else 0) := by
        intro i
        simp [moved_matrix, update_partition_matrix,
          compute_new_rows_cols_interblock_edge_count_matrix]
      rw [Finset.sum_congr rfl (fun i _ => h1 i), Finset.sum_add_distrib,
        Finset.sum_sub_distrib, Finset.sum_add_distrib, sum_ite_single,
        sum_ite_single]
      simp only [compute_new_block_degree, if_pos rfl, if_neg (Ne.symm hrs),
        sub_zero]
      rw [hdi j]
      simp only [ite_true]
      ring
    · rw [sum_split hrs (fun i => moved_matrix M r s cout cin cself i j)]
      have h1 : ∀ i ∈ Finset.univ \ ({r, s} : Finset (Fin B)),
          moved_matrix M r s cout cin cself i j = M i j := by
        intro i hi
        obtain ⟨hi1, hi2⟩ := mem_diff_pair hi
        simp [moved_matrix, update_partition_matrix,
          compute_new_rows_cols_interblock_edge_count_matrix, hi1, hi2, hjr, hjs]
      have hc1 : moved_matrix M r s cout cin cself r j = M r j - cout j := by
        simp [moved_matrix, update_partition_matrix,
          compute_new_rows_cols_interblock_edge_count_matrix, hjr, hjs, hrs]
      have hc2 : moved_matrix M r s cout cin cself s j = M s j + cout j := by
        simp [moved_matrix, update_partition_matrix,
          compute_new_rows_cols_interblock_edge_count_matrix, hjr, hjs,
          Ne.symm hrs]
      rw [Finset.sum_congr rfl h1, hc1, hc2]
      simp only [compute_new_block_degree, if_neg hjr, if_neg hjs, sub_zero,
        add_zero]
      rw [hdi j, sum_split hrs (fun i => M i j)]
      ring

/-- Claim C2 (amended: the moved vertex has no self-loop, `count_self = 0`).
For a valid partition and a vertex move `r ≠ s` whose update vectors come from
the vertex-move edge-count kernel on the vertex's aggregated neighbour-block
counts and whose candidate degrees come from `compute_new_block_degrees`, the
partition produced by `update_partition` again satisfies
`d_out[i] = ∑_j M[i,j]`, `d_in[i] = ∑_j M[j,i]`, `d[i] = d_out[i] + d_in[i]`
and `∑ M = E`.  (With a self-loop of weight `c > 0` the row sums at `r` and
`s` are off by `∓ c`; see the counterexample.) -/
theorem update_partition_preserves_invariants
    (M : Fin B → Fin B → ℤ) (dout din d : Fin B → ℤ) (E : ℤ)
    (r s : Fin B) (cout cin : Fin B → ℤ) (cself kout kin ktot : ℤ)
    (hM : ∀ i j, 0 ≤ M i j)
    (hdo : ∀ i, dout i = ∑ j, M i j)
    (hdi : ∀ j, din j = ∑ i, M i j)
    (hd : ∀ i, d i = dout i + din i)
    (hE : (∑ i, ∑ j, M i j) = E)
    (hrs : r ≠ s)
    (hko : kout = ∑ j, cout j)
    (hki : kin = ∑ i, cin i)
    (hkt : ktot = kout + kin)
    (hc : cself = 0) :
    (∀ i, compute_new_block_degree dout r s kout i
        = ∑ j, moved_matrix M r s cout cin cself i j) ∧
    (∀ j, compute_new_block_degree din r s kin j
        = ∑ i, moved_matrix M r s cout cin cself i j) ∧
    (∀ i, compute_new_block_degree d r s ktot i
        = compute_new_block_degree dout r s kout i
          + compute_new_block_degree din r s kin i) ∧
    (∑ i, ∑ j, moved_matrix M r s cout cin cself i j) = E := by
  subst hc hko hki hkt hE
  refine ⟨fun i => (moved_matrix_row_sum M dout r s cout cin hdo hrs i).symm,
    fun j => (moved_matrix_col_sum M din r s cout cin 0 hdi hrs j).symm,
    fun i => ?_, ?_⟩
  · simp only [compute_new_block_degree, hd i]
    split_ifs <;> ring
  · rw [Finset.sum_congr rfl
      (fun i _ => moved_matrix_row_sum M dout r s cout cin hdo hrs i),
      sum_compute_new_block_degree]
    exact Finset.sum_congr rfl fun i _ => hdo i

/-- Concrete C2 counterexample data: a two-vertex graph whose single edge is a
self-loop of weight `1` on vertex `0`; blocks `{0}` and `{1}`.  The vertex
moves from block `0` to block `1`; its aggregated counts are
`count_out = count_in = [1, 0]` and `count_self = 1`. -/
def c2M : Fin 2 → Fin 2 → ℤ := ![![1, 0], ![0, 0]]

def c2cnt : Fin 2 → ℤ := ![1, 0]

def c2dout : Fin 2 → ℤ := ![1, 0]

def c2din : Fin 2 → ℤ := ![1, 0]

def c2d : Fin 2 → ℤ := ![2, 0]

/-- Claim C2 as stated is false: at the self-loop instance all of its
hypotheses hold (valid partition, kernel update vectors, candidate degrees
from `compute_new_block_degrees`, `r ≠ s`), yet the updated matrix's row sums
disagree with the candidate out-degrees, so `d_out[i] = ∑_j M[i,j]` fails. -/
theorem update_partition_invariants_counterexample :
    (∀ i j, 0 ≤ c2M i j) ∧
    (∀ i, c2dout i = ∑ j, c2M i j) ∧
    (∀ j, c2din j = ∑ i, c2M i j) ∧
    (∀ i, c2d i = c2dout i + c2din i) ∧
    (∑ i, ∑ j, c2M i j) = 1 ∧
    (1 : ℤ) = ∑ j, c2cnt j ∧
    ¬ (∀ i, compute_new_block_degree c2dout 0 1 1 i
          = ∑ j, moved_matrix c2M 0 1 c2cnt c2cnt 1 i j) := by
  refine ⟨by decide, by decide, by decide, by decide, by decide, by decide, ?_⟩
  intro h
  have h0 := h 0
  revert h0
  decide

/-- Witness for the amended claim C2 at a concrete self-loop-free instance:
vertex `0` of a two-vertex graph with the single edge `0 → 1`, moving from
block `0` to block `1`. -/
theorem update_partition_preserves_invariants_witness :
    (∀ i, compute_new_block_degree ![(1 : ℤ), 0] 0 1 1 i
        = ∑ j, moved_matrix ![![0, 1], ![0, 0]] 0 1 ![0, 1] ![0, 0] 0 i j) ∧
    (∀ j, compute_new_block_degree ![(0 : ℤ), 1] 0 1 0 j
        = ∑ i, moved_matrix ![![0, 1], ![0, 0]] 0 1 ![0, 1] ![0, 0] 0 i j) ∧
    (∀ i, compute_new_block_degree ![(1 : ℤ), 1] 0 1 1 i
        = compute_new_block_degree ![(1 : ℤ), 0] 0 1 1 i
          + compute_new_block_degree ![(0 : ℤ), 1] 0 1 0 i) ∧
    (∑ i, ∑ j, moved_matrix ![![(0 : ℤ), 1], ![0, 0]] 0 1 ![0, 1] ![0, 0] 0 i j) = 1 :=
  update_partition_preserves_invariants
    ![![0, 1], ![0, 0]] ![1, 0] ![0, 1] ![1, 1] 1 0 1 ![0, 1] ![0, 0] 0 1 0 1
    (by decide) (by decide) (by decide) (by decide) (by decide) (by decide)
    (by decide) (by decide) (by decide) rfl

/-! ## Carrying out the best merges (`carry_out_best_merges`) -/

/-- State of the merge-commit loop of `carry_out_best_merges`
(`partition_baseline_support.py` lines 761-772): the vertex assignment, the
union-find-like `block_map` (initially `np.arange(B)`, i.e. the identity), the
number of merges committed so far, and (for specification purposes) the list
of sources committed, in order. -/
structure MergeState (N : ℕ) where
  asg : Fin N → ℕ
  bm : ℕ → ℕ
  numMerge : ℕ
  committed : List ℕ

/-- Committing the merge of block `m` into block `t`: every assignment equal
to `m` is rewritten to `t`, and every `block_map` entry equal to `m` is
rewritten to `t` (lines 770-772). -/
def merge_commit {N : ℕ} (st : MergeState N) (m t : ℕ) : MergeState N where
  asg := fun v => if st.asg v = m then t else st.asg v
  bm := fun x => if st.bm x = m then t else st.bm x
  numMerge := st.numMerge + 1
  committed := st.committed ++ [m]

/-- The `while num_merge < num_blocks_to_merge` loop of
`carry_out_best_merges` (lines 765-772), walking the ΔS-sorted block list: a
merge whose source and `block_map`-resolved target coincide is skipped;
otherwise it is committed.  (If Python exhausts `bestMerges` before `target`
merges succeed it raises `IndexError`; the model then returns the state
reached, and the theorems require the loop to reach `target`.) -/
def carry_out_loop {N : ℕ} (target : ℕ) (best_merge : ℕ → ℕ) :
    List ℕ → MergeState N → MergeState N
  | [], st => st
  | m :: rest, st =>
    if target ≤ st.numMerge then st
    else if st.bm (best_merge m) = m then carry_out_loop target best_merge rest st
    else carry_out_loop target best_merge rest
      (merge_commit st m (st.bm (best_merge m)))

/-- Position of `x` in the sorted list of surviving block labels: the
compaction `mapping[remaining_blocks] = np.arange(len(remaining_blocks))`
(lines 773-776) sends a surviving label to its rank. -/
def block_rank (S : Finset ℕ) (x : ℕ) : ℕ := (S.filter (fun y => y < x)).card

instance degree_cmp_decidable (dE : ℕ → ℚ) :
    DecidableRel (fun i j => dE i ≤ dE j) :=
  fun a b => inferInstanceAs (Decidable (dE a ≤ dE b))

/-- Embedding of `carry_out_best_merges` (lines 744-779): sort the blocks by
delta entropy (`argsort`, modelled by a stable sort — any argsort output is
sorted by `dE`, which is all the claims use), run the commit loop, then
compact the surviving labels with `np.unique`-based renumbering and subtract
`num_blocks_to_merge` from `num_blocks`.  Returns the new assignment, the new
number of blocks, and the committed-source list. -/
def carry_out_best_merges {N : ℕ} (Bn target : ℕ) (dE : ℕ → ℚ)
    (best_merge : ℕ → ℕ) (asg : Fin N → ℕ) : (Fin N → ℕ) × ℕ × List ℕ :=
  let bestMerges := List.insertionSort (fun i j => dE i ≤ dE j) (List.range Bn)
  let st := carry_out_loop target best_merge bestMerges ⟨asg, id, 0, []⟩
  let S := Finset.image st.asg Finset.univ
  (fun v => block_rank S (st.asg v), Bn - target, st.committed)

lemma image_update_eq_erase {N : ℕ} (asg : Fin N → ℕ) (m t : ℕ)
    (ht : t ∈ Finset.image asg Finset.univ) (hne : ¬ t = m) :
    Finset.image (fun v => if asg v = m then t else asg v) Finset.univ
      = (Finset.image asg Finset.univ).erase m := by
  ext x
  constructor
  · intro hx
    obtain ⟨v, -, hv⟩ := Finset.mem_image.mp hx
    by_cases h : asg v = m
    · rw [if_pos h] at hv
      subst hv
      exact Finset.mem_erase.mpr ⟨hne, ht⟩
    · rw [if_neg h] at hv
      subst hv
      exact Finset.mem_erase.mpr ⟨h, Finset.mem_image.mpr ⟨v, Finset.mem_univ v, rfl⟩⟩
  · intro hx
    obtain ⟨hxm, hxS⟩ := Finset.mem_erase.mp hx
    obtain ⟨v, -, hv⟩ := Finset.mem_image.mp hxS
    refine Finset.mem_image.mpr ⟨v, Finset.mem_univ v, ?_⟩
    rw [if_neg (by rw [hv]; exact hxm), hv]

/-- Invariant of the commit loop: the number of distinct live labels plus the
number of merges performed is constant, and the committed list grows by a
sublist of the processed list. -/
lemma carry_out_loop_invariant {N : ℕ} (target Bn : ℕ) (best_merge : ℕ → ℕ)
    (hbm : ∀ x, x < Bn → best_merge x < Bn) (l : List ℕ) :
    ∀ st : MergeState N, l.Nodup →
      (∀ m ∈ l, m < Bn ∧ m ∈ Finset.image st.asg Finset.univ) →
      (∀ x, x < Bn → st.bm x ∈ Finset.image st.asg Finset.univ) →
      (Finset.image st.asg Finset.univ).card + st.numMerge = Bn →
      ((Finset.image (carry_out_loop target best_merge l st).asg
            Finset.univ).card
          + (carry_out_loop target best_merge l st).numMerge = Bn) ∧
      ∃ l2, l2.Sublist l ∧
        (carry_out_loop target best_merge l st).committed
          = st.committed ++ l2 := by
  induction l with
  | nil =>
    intro st _ _ _ hcard
    exact ⟨hcard, [], List.nil_sublist _, (List.append_nil _).symm⟩
  | cons m rest ih =>
    intro st hnd hmem hbmS hcard
    rw [carry_out_loop]
    by_cases hstop : target ≤ st.numMerge
    · rw [if_pos hstop]
      exact ⟨hcard, [], List.nil_sublist _, (List.append_nil _).symm⟩
    · rw [if_neg hstop]
      obtain ⟨hmrest, hndrest⟩ := List.nodup_cons.mp hnd
      by_cases hskip : st.bm (best_merge m) = m
      · rw [if_pos hskip]
        obtain ⟨h1, l2, hsub, hcom⟩ := ih st hndrest
          (fun x hx => hmem x (List.mem_cons_of_mem m hx)) hbmS hcard
        exact ⟨h1, l2, hsub.cons m, hcom⟩
      · rw [if_neg hskip]
        obtain ⟨hmB, hmS⟩ := hmem m (List.mem_cons_self m rest)
        have htS : st.bm (best_merge m) ∈ Finset.image st.asg Finset.univ :=
          hbmS _ (hbm m hmB)
        have himg : Finset.image
              (merge_commit st m (st.bm (best_merge m))).asg Finset.univ
            = (Finset.image st.asg Finset.univ).erase m :=
          image_update_eq_erase st.asg m _ htS hskip
        have hScard : 1 ≤ (Finset.image st.asg Finset.univ).card :=
          Finset.card_pos.mpr ⟨m, hmS⟩
        obtain ⟨h1, l2, hsub, hcom⟩ := ih
          (merge_commit st m (st.bm (best_merge m))) hndrest
          (fun x hx => ⟨(hmem x (List.mem_cons_of_mem m hx)).1, by
            rw [himg]
            exact Finset.mem_erase.mpr ⟨fun hxm => hmrest (hxm ▸ hx),
              (hmem x (List.mem_cons_of_mem m hx)).2⟩⟩)
          (fun x hxB => by
            show (if st.bm x = m then st.bm (best_merge m) else st.bm x) ∈ _
            rw [himg]
            by_cases hx : st.bm x = m
            · rw [if_pos hx]
              exact Finset.mem_erase.mpr ⟨hskip, htS⟩
            · rw [if_neg hx]
              exact Finset.mem_erase.mpr ⟨hx, hbmS x hxB⟩)
          (by
            show (Finset.image _ Finset.univ).card + (st.numMerge + 1) = Bn
            rw [himg, Finset.card_erase_of_mem hmS]
            omega)
        refine ⟨h1, m :: l2, hsub.cons₂ m, ?_⟩
        rw [hcom]
        show (st.committed ++ [m]) ++ l2 = st.committed ++ (m :: l2)
        simp

lemma block_rank_lt_card {S : Finset ℕ} {x : ℕ} (hx : x ∈ S) :
    block_rank S x < S.card := by
  apply Finset.card_lt_card
  rw [Finset.ssubset_iff_subset_ne]
  refine ⟨Finset.filter_subset _ _, fun h => ?_⟩
  have : x ∈ S.filter (fun y => y < x) := h.symm ▸ hx
  exact absurd (Finset.mem_filter.mp this).2 (lt_irrefl x)

lemma block_rank_lt_of_lt {S : Finset ℕ} {x y : ℕ} (hx : x ∈ S) (hxy : x < y) :
    block_rank S x < block_rank S y := by
  apply Finset.card_lt_card
  rw [Finset.ssubset_iff_subset_ne]
  constructor
  · intro z hz
    obtain ⟨hz1, hz2⟩ := Finset.mem_filter.mp hz
    exact Finset.mem_filter.mpr ⟨hz1, lt_trans hz2 hxy⟩
  · intro h
    have : x ∈ S.filter (fun y' => y' < y) := Finset.mem_filter.mpr ⟨hx, hxy⟩
    rw [← h] at this
    exact absurd (Finset.mem_filter.mp this).2 (lt_irrefl x)

/-- The compaction map is a bijection from the surviving labels onto
`[0, S.card)`. -/
lemma image_block_rank (S : Finset ℕ) :
    S.image (block_rank S) = Finset.range S.card := by
  apply Finset.eq_of_subset_of_card_le
  · intro k hk
    obtain ⟨x, hx, rfl⟩ := Finset.mem_image.mp hk
    exact Finset.mem_range.mpr (block_rank_lt_card hx)
  · rw [Finset.card_range, Finset.card_image_of_injOn]
    intro x hx y hy hxy
    rcases lt_trichotomy x y with h | h | h
    · exact absurd hxy (Nat.ne_of_lt (block_rank_lt_of_lt hx h))
    · exact h
    · exact absurd hxy.symm (Nat.ne_of_lt (block_rank_lt_of_lt hy h))

/-- Claim C4.  If every label in `[0, B)` is assigned to at least one vertex,
`best_merge` proposes block ids in range, and the ΔS-ordered commit loop
achieves `num_blocks_to_merge` merges (at least that many valid,
non-self-resolving merges exist), then `carry_out_best_merges` returns a
partition with exactly `B - num_blocks_to_merge` blocks, its surviving blocks
renumbered onto `[0, B - num_blocks_to_merge)` (every assignment entry lies in
that interval and every value in it is used), and the merges are committed in
ascending order of delta entropy, skipping merges whose source and
`block_map`-resolved target coincide. -/
theorem carry_out_best_merges_spec {N : ℕ} (Bn target : ℕ) (dE : ℕ → ℚ)
    (best_merge : ℕ → ℕ) (asg : Fin N → ℕ)
    (hcover : ∀ b, b < Bn → ∃ v, asg v = b)
    (hasg : ∀ v, asg v < Bn)
    (hbm : ∀ x, x < Bn → best_merge x < Bn)
    (henough : (carry_out_loop target best_merge
        (List.insertionSort (fun i j => dE i ≤ dE j) (List.range Bn))
        (⟨asg, id, 0, []⟩ : MergeState N)).numMerge = target) :
    (carry_out_best_merges Bn target dE best_merge asg).2.1 = Bn - target ∧
    (∀ v, (carry_out_best_merges Bn target dE best_merge asg).1 v
        < Bn - target) ∧
    Finset.image (carry_out_best_merges Bn target dE best_merge asg).1
        Finset.univ = Finset.range (Bn - target) ∧
    List.Pairwise (fun a b => dE a ≤ dE b)
      (carry_out_best_merges Bn target dE best_merge asg).2.2 := by
  have himg0 : Finset.image asg Finset.univ = Finset.range Bn := by
    ext b
    constructor
    · intro hb
      obtain ⟨v, -, hv⟩ := Finset.mem_image.mp hb
      exact Finset.mem_range.mpr (hv ▸ hasg v)
    · intro hb
      obtain ⟨v, hv⟩ := hcover b (Finset.mem_range.mp hb)
      exact Finset.mem_image.mpr ⟨v, Finset.mem_univ v, hv⟩
  simp only [carry_out_best_merges]
  set ord := List.insertionSort (fun i j => dE i ≤ dE j) (List.range Bn)
    with hord
  set stf := carry_out_loop target best_merge ord
    (⟨asg, id, 0, []⟩ : MergeState N) with hstf
  have hperm : ord.Perm (List.range Bn) := List.perm_insertionSort _ _
  obtain ⟨hc, l2, hsub, hcom⟩ := carry_out_loop_invariant target Bn best_merge
    hbm ord (⟨asg, id, 0, []⟩ : MergeState N)
    (hperm.nodup_iff.mpr (List.nodup_range Bn))
    (fun m hm => by
      have hmB : m < Bn := List.mem_range.mp (hperm.mem_iff.mp hm)
      exact ⟨hmB, by
        show m ∈ Finset.image asg Finset.univ
        rw [himg0]; exact Finset.mem_range.mpr hmB⟩)
    (fun x hx => by
      show x ∈ Finset.image asg Finset.univ
      rw [himg0]; exact Finset.mem_range.mpr hx)
    (by
      show (Finset.image asg Finset.univ).card + 0 = Bn
      rw [himg0, Finset.card_range, Nat.add_zero])
  rw [← hstf, henough] at hc
  refine ⟨trivial, fun v => ?_, ?_, ?_⟩
  · show block_rank (Finset.image stf.asg Finset.univ) (stf.asg v)
      < Bn - target
    have hmem : stf.asg v ∈ Finset.image stf.asg Finset.univ :=
      Finset.mem_image.mpr ⟨v, Finset.mem_univ v, rfl⟩
    have h2 := block_rank_lt_card hmem
    omega
  · show Finset.image
      (fun v => block_rank (Finset.image stf.asg Finset.univ) (stf.asg v))
      Finset.univ = Finset.range (Bn - target)
    rw [show (fun v => block_rank (Finset.image stf.asg Finset.univ)
          (stf.asg v))
        = (block_rank (Finset.image stf.asg Finset.univ)) ∘ stf.asg from rfl,
      ← Finset.image_image, image_block_rank]
    congr 1
    omega
  · show List.Pairwise (fun a b => dE a ≤ dE b) stf.committed
    rw [← hstf] at hcom
    rw [hcom]
    haveI : IsTotal ℕ (fun i j => dE i ≤ dE j) :=
      ⟨fun a b => le_total (dE a) (dE b)⟩
    haveI : IsTrans ℕ (fun i j => dE i ≤ dE j) :=
      ⟨fun _ _ _ hab hbc => le_trans hab hbc⟩
    have hsorted := List.sorted_insertionSort (fun i j => dE i ≤ dE j)
      (List.range Bn)
    rw [← hord] at hsorted
    simpa using List.Pairwise.sublist hsub hsorted

/-- Witness for claim C4: two singleton blocks, one merge; block `0` merges
into block `1`, and the survivor is renumbered to `0`. -/
theorem carry_out_best_merges_spec_witness :
    (carry_out_best_merges 2 1 (fun _ => 0) (fun x => 1 - x)
        (![0, 1] : Fin 2 → ℕ)).2.1 = 2 - 1 ∧
    (∀ v, (carry_out_best_merges 2 1 (fun _ => 0) (fun x => 1 - x)
        (![0, 1] : Fin 2 → ℕ)).1 v < 2 - 1) ∧
    Finset.image (carry_out_best_merges 2 1 (fun _ => 0) (fun x => 1 - x)
        (![0, 1] : Fin 2 → ℕ)).1 Finset.univ = Finset.range (2 - 1) ∧
    List.Pairwise (fun a b => (0 : ℚ) ≤ 0)
      (carry_out_best_merges 2 1 (fun _ => 0) (fun x => 1 - x)
        (![0, 1] : Fin 2 → ℕ)).2.2 :=
  carry_out_best_merges_spec 2 1 (fun _ => 0) (fun x => 1 - x) ![0, 1]
    (by decide) (by decide) (by decide) (by decide)

/-! ## Merge update vectors (claim C5) -/

/-- Claim C5.  For a merge proposal `r → s` (`r ≠ s`) whose neighbour counts
are the aggregation of `M`'s row/column `r` (`outgoing_edges`,
`incoming_edges` of `block_merge.py`) and whose `count_self` is `M[r,r]`,
`block_merge_edge_count_updates` returns zero `r` row/column, the described
arithmetic on the `s` row/column, and all four vectors are entrywise
nonnegative when the partition is valid (entrywise nonnegative `M`). -/
theorem block_merge_edge_count_updates_spec
    (M : Fin B → Fin B → ℤ) (r s : Fin B) (cout cin : Fin B → ℤ) (cself : ℤ)
    (hM : ∀ i j, 0 ≤ M i j)
    (hcout : ∀ j, cout j = M r j)
    (hcin : ∀ i, cin i = M i r)
    (hcs : cself = M r r)
    (hrs : r ≠ s) :
    (∀ j, (block_merge_edge_count_updates M r s cout cin cself).block_row j
        = 0) ∧
    (∀ i, (block_merge_edge_count_updates M r s cout cin cself).block_col i
        = 0) ∧
    (∀ j, (block_merge_edge_count_updates M r s cout cin cself).proposal_row j
        = M s j + cout j
          + (if j = r then -(cin s + cself)
             else if j = s then cin s + cself else 0)) ∧
    (∀ i, (block_merge_edge_count_updates M r s cout cin cself).proposal_col i
        = M i s + cin i
          + (if i = r then -(cout s + cself)
             else if i = s then cout s + cself else 0)) ∧
    (∀ j, 0 ≤ (block_merge_edge_count_updates M r s cout cin cself).proposal_row j) ∧
    (∀ i, 0 ≤ (block_merge_edge_count_updates M r s cout cin cself).proposal_col i) := by
  refine ⟨fun j => rfl, fun i => rfl, fun j => ?_, fun i => ?_, fun j => ?_,
    fun i => ?_⟩
  · simp only [block_merge_edge_count_updates]
    by_cases hj : j = r
    · subst hj
      rw [if_pos rfl, if_pos rfl, if_neg hrs]
      ring
    · simp only [if_neg hj]
      split_ifs <;> ring
  · simp only [block_merge_edge_count_updates]
    by_cases hi : i = r
    · subst hi
      rw [if_pos rfl, if_pos rfl, if_neg hrs]
      ring
    · simp only [if_neg hi]
      split_ifs <;> ring
  · simp only [block_merge_edge_count_updates]
    by_cases hj : j = r
    · subst hj
      rw [if_pos rfl, if_neg hrs, hcout, hcin, hcs]
      have := hM s j
      have := hM j j
      omega
    · rw [if_neg hj]
      by_cases hj2 : j = s
      · subst hj2
        rw [if_pos rfl, hcout, hcin, hcs]
        have := hM j j
        have := hM r j
        have := hM j r
        have := hM r r
        omega
      · rw [if_neg hj2, hcout]
        have := hM s j
        have := hM r j
        omega
  · simp only [block_merge_edge_count_updates]
    by_cases hi : i = r
    · subst hi
      rw [if_pos rfl, if_neg hrs, hcout, hcin, hcs]
      have := hM i s
      have := hM i i
      omega
    · rw [if_neg hi]
      by_cases hi2 : i = s
      · subst hi2
        rw [if_pos rfl, hcout, hcin, hcs]
        have := hM i i
        have := hM i r
        have := hM r i
        have := hM r r
        omega
      · rw [if_neg hi2, hcin]
        have := hM i s
        have := hM i r
        omega

/-- Witness for claim C5 on a concrete valid two-block partition: merging
block `0` (which has a self-loop `M[0,0] = 1` and an edge to block `1`) into
block `1`. -/
theorem block_merge_edge_count_updates_spec_witness :
    (∀ j, (block_merge_edge_count_updates ![![1, 1], ![2, 1]] 0 1
        ![1, 1] ![1, 2] 1).block_row j = 0) ∧
    (∀ i, (block_merge_edge_count_updates ![![1, 1], ![2, 1]] 0 1
        ![1, 1] ![1, 2] 1).block_col i = 0) ∧
    (∀ j, (block_merge_edge_count_updates ![![1, 1], ![2, 1]] 0 1
        ![1, 1] ![1, 2] 1).proposal_row j
        = ![![(1 : ℤ), 1], ![2, 1]] 1 j + ![(1 : ℤ), 1] j
          + (if j = 0 then -(![(1 : ℤ), 2] 1 + 1)
             else if j = 1 then ![(1 : ℤ), 2] 1 + 1 else 0)) ∧
    (∀ i, (block_merge_edge_count_updates ![![1, 1], ![2, 1]] 0 1
        ![1, 1] ![1, 2] 1).proposal_col i
        = ![![(1 : ℤ), 1], ![2, 1]] i 1 + ![(1 : ℤ), 2] i
          + (if i = 0 then -(![(1 : ℤ), 1] 1 + 1)
             else if i = 1 then ![(1 : ℤ), 1] 1 + 1 else 0)) ∧
    (∀ j, 0 ≤ (block_merge_edge_count_updates ![![1, 1], ![2, 1]] 0 1
        ![1, 1] ![1, 2] 1).proposal_row j) ∧
    (∀ i, 0 ≤ (block_merge_edge_count_updates ![![1, 1], ![2, 1]] 0 1
        ![1, 1] ![1, 2] 1).proposal_col i) :=
  block_merge_edge_count_updates_spec ![![1, 1], ![2, 1]] 0 1 ![1, 1] ![1, 2] 1
    (by decide) (by decide) (by decide) (by decide) (by decide)

/-! ## Vertex move proposing the current block (claim C7) -/

/-- Claim C7 (amended: the vertex's aggregated neighbour counts are all zero,
e.g. an isolated vertex).  When `s = r`, committing the four vectors of the
vertex-move kernel through `update_partition` leaves the matrix unchanged.
In general, re-applying rows followed by columns with `s = r` adds
`count_out` along row `r` and `count_in` along column `r`, so the update is
not the identity (see the counterexample). -/
theorem vertex_move_same_block_identity
    (M : Fin B → Fin B → ℤ) (r s : Fin B) (cout cin : Fin B → ℤ) (cself : ℤ)
    (hrs : r = s) (hco : ∀ j, cout j = 0) (hci : ∀ i, cin i = 0) :
    moved_matrix M r s cout cin cself = M := by
  subst hrs
  funext i j
  by_cases hj : j = r <;> by_cases hi : i = r <;>
    simp [moved_matrix, update_partition_matrix,
      compute_new_rows_cols_interblock_edge_count_matrix, hco, hci, hj, hi]

/-- Claim C7 as stated is false: for a vertex in block `0` with a single
out-edge of weight `1` into block `1` (graph `0 → 1`, blocks `{0}`, `{1}`,
so `M = [[0,1],[0,0]]`, `count_out = [0,1]`, `count_in = [0,0]`,
`count_self = 0`) and proposal `s = r = 0`, applying the kernel's four
vectors as rows `r`, `s` and columns `r`, `s` changes the matrix: entry
`(0,1)` becomes `2`. -/
theorem vertex_move_same_block_counterexample :
    moved_matrix ![![0, 1], ![0, 0]] 0 0 ![0, 1] ![0, 0] 0
      ≠ ![![0, 1], ![0, 0]] := by
  decide

/-- Witness for the amended claim C7: an isolated vertex (all counts zero)
proposed back into its own block leaves the matrix unchanged. -/
theorem vertex_move_same_block_identity_witness :
    moved_matrix ![![0, 1], ![0, 0]] 0 0 ![0, 0] ![0, 0] 0
      = ![![0, 1], ![0, 0]] :=
  vertex_move_same_block_identity ![![0, 1], ![0, 0]] 0 0 ![0, 0] ![0, 0] 0
    rfl (by decide) (by decide)

/-! ## Candidate block degrees (claim C10) -/

/-- Claim C10.  The candidate degree vectors returned by
`compute_new_block_degrees` agree with the current ones away from `r` and
`s`, differ exactly by the vertex degrees at `r` and `s` when `r ≠ s`, leave
the vector sums unchanged, and return the current vectors when `r = s`.
(The freshness part of the claim — the input partition's stored vectors are
not mutated, `old.copy()` — is automatic in this pure-function embedding.) -/
theorem compute_new_block_degrees_spec
    (dout din d : Fin B → ℤ) (r s : Fin B) (kout kin k : ℤ) :
    (∀ t, t ≠ r → t ≠ s →
      compute_new_block_degree dout r s kout t = dout t ∧
      compute_new_block_degree din r s kin t = din t ∧
      compute_new_block_degree d r s k t = d t) ∧
    (r ≠ s →
      compute_new_block_degree dout r s kout r = dout r - kout ∧
      compute_new_block_degree dout r s kout s = dout s + kout ∧
      compute_new_block_degree din r s kin r = din r - kin ∧
      compute_new_block_degree din r s kin s = din s + kin ∧
      compute_new_block_degree d r s k r = d r - k ∧
      compute_new_block_degree d r s k s = d s + k) ∧
    ((∑ t, compute_new_block_degree dout r s kout t) = ∑ t, dout t) ∧
    ((∑ t, compute_new_block_degree din r s kin t) = ∑ t, din t) ∧
    ((∑ t, compute_new_block_degree d r s k t) = ∑ t, d t) ∧
    (r = s → ∀ t,
      compute_new_block_degree dout r s kout t = dout t ∧
      compute_new_block_degree din r s kin t = din t ∧
      compute_new_block_degree d r s k t = d t) := by
  refine ⟨fun t ht1 ht2 => ?_, fun hrs => ?_,
    sum_compute_new_block_degree dout r s kout,
    sum_compute_new_block_degree din r s kin,
    sum_compute_new_block_degree d r s k, fun hrs t => ?_⟩
  · simp [compute_new_block_degree, ht1, ht2]
  · refine ⟨?_, ?_, ?_, ?_, ?_, ?_⟩ <;>
      simp [compute_new_block_degree, hrs, Ne.symm hrs] <;> ring
  · subst hrs
    simp only [compute_new_block_degree]
    refine ⟨by split_ifs <;> ring, by split_ifs <;> ring,
      by split_ifs <;> ring⟩

/-- Witness for claim C10 at concrete degree vectors. -/
theorem compute_new_block_degrees_spec_witness :
    (∀ t, t ≠ 0 → t ≠ 1 →
      compute_new_block_degree ![(3 : ℤ), 4] 0 1 2 t = ![(3 : ℤ), 4] t ∧
      compute_new_block_degree ![(5 : ℤ), 6] 0 1 1 t = ![(5 : ℤ), 6] t ∧
      compute_new_block_degree ![(8 : ℤ), 10] 0 1 3 t = ![(8 : ℤ), 10] t) ∧
    ((0 : Fin 2) ≠ 1 →
      compute_new_block_degree ![(3 : ℤ), 4] 0 1 2 0 = ![(3 : ℤ), 4] 0 - 2 ∧
      compute_new_block_degree ![(3 : ℤ), 4] 0 1 2 1 = ![(3 : ℤ), 4] 1 + 2 ∧
      compute_new_block_degree ![(5 : ℤ), 6] 0 1 1 0 = ![(5 : ℤ), 6] 0 - 1 ∧
      compute_new_block_degree ![(5 : ℤ), 6] 0 1 1 1 = ![(5 : ℤ), 6] 1 + 1 ∧
      compute_new_block_degree ![(8 : ℤ), 10] 0 1 3 0 = ![(8 : ℤ), 10] 0 - 3 ∧
      compute_new_block_degree ![(8 : ℤ), 10] 0 1 3 1 = ![(8 : ℤ), 10] 1 + 3) ∧
    ((∑ t, compute_new_block_degree ![(3 : ℤ), 4] 0 1 2 t)
        = ∑ t, ![(3 : ℤ), 4] t) ∧
    ((∑ t, compute_new_block_degree ![(5 : ℤ), 6] 0 1 1 t)
        = ∑ t, ![(5 : ℤ), 6] t) ∧
    ((∑ t, compute_new_block_degree ![(8 : ℤ), 10] 0 1 3 t)
        = ∑ t, ![(8 : ℤ), 10] t) ∧
    ((0 : Fin 2) = 1 → ∀ t,
      compute_new_block_degree ![(3 : ℤ), 4] 0 1 2 t = ![(3 : ℤ), 4] t ∧
      compute_new_block_degree ![(5 : ℤ), 6] 0 1 1 t = ![(5 : ℤ), 6] t ∧
      compute_new_block_degree ![(8 : ℤ), 10] 0 1 3 t = ![(8 : ℤ), 10] t) :=
  compute_new_block_degrees_spec ![3, 4] ![5, 6] ![8, 10] 0 1 2 1 3

/-! ## Overall entropy (claim C1) -/

/-- One term `x · ln(x / (u · v))` of the data entropy.  The code sums these
over the nonzero entries only; in `ℝ` a zero entry contributes
`0 * log _ = 0`, so summing over all entries is the same value. -/
noncomputable def entry_term (x u v : ℤ) : ℝ :=
  (x : ℝ) * Real.log ((x : ℝ) / ((u : ℝ) * (v : ℝ)))

/-- The data part of `compute_overall_entropy`
(`partition_baseline_support.py` lines 861-868):
`-Σ M[i,j]·ln(M[i,j]/(d_out[i]·d_in[j]))` over the entries of `M`. -/
noncomputable def data_entropy (M : Fin B → Fin B → ℤ) (dout din : Fin B → ℤ) :
    ℝ :=
  - ∑ i, ∑ j, entry_term (M i j) (dout i) (din j)

/-- The model part of `compute_overall_entropy`, transcribed with the
source's operator precedence (line 870):
`E * (1 + t) * log(1 + t) - t * log(t) + N * log(B)` — only the
`(1+t)·ln(1+t)` factor is multiplied by `E`. -/
noncomputable def model_entropy (Bn N E : ℕ) : ℝ :=
  (E : ℝ) * (1 + (Bn : ℝ) ^ 2 / (E : ℝ)) * Real.log (1 + (Bn : ℝ) ^ 2 / (E : ℝ))
    - ((Bn : ℝ) ^ 2 / (E : ℝ)) * Real.log ((Bn : ℝ) ^ 2 / (E : ℝ))
    + (N : ℝ) * Real.log (Bn : ℝ)

/-- `compute_overall_entropy` (lines 827-872): model part plus data part. -/
noncomputable def compute_overall_entropy (M : Fin B → Fin B → ℤ)
    (dout din : Fin B → ℤ) (N E : ℕ) : ℝ :=
  model_entropy B N E + data_entropy M dout din

/-- Modelled from the spec (and from the function's own docstring, line 857):
`S = E·h(B²/E) + N·ln B - Σ M[i,j]·ln(M[i,j]/(d_out[i]·d_in[j]))` with
`h(x) = (1+x)·ln(1+x) - x·ln x`, i.e. the whole of `h` multiplied by `E`. -/
noncomputable def spec_overall_entropy (M : Fin B → Fin B → ℤ)
    (dout din : Fin B → ℤ) (N E : ℕ) : ℝ :=
  (E : ℝ) * ((1 + (B : ℝ) ^ 2 / (E : ℝ)) * Real.log (1 + (B : ℝ) ^ 2 / (E : ℝ))
      - ((B : ℝ) ^ 2 / (E : ℝ)) * Real.log ((B : ℝ) ^ 2 / (E : ℝ)))
    + (N : ℝ) * Real.log (B : ℝ)
    + data_entropy M dout din

/-- Claim C1 rates as a code bug: the docstring (line 857) and the spec say
`E·h(B²/E)` with `h(x) = (1+x)ln(1+x) − x·ln x`, but line 870 multiplies only
the `(1+x)ln(1+x)` part by `E` (Python precedence).  At the one-node graph
with a double self-loop (`B = 1`, `N = 1`, `E = 2`, `M = [[2]]`,
`d_out = d_in = [2]`) the two values differ by `(1/2)·ln 2`. -/
theorem compute_overall_entropy_code_divergence :
    compute_overall_entropy ![![(2 : ℤ)]] ![2] ![2] 1 2
      ≠ spec_overall_entropy ![![(2 : ℤ)]] ![2] ![2] 1 2 := by
  have hlog : 0 < Real.log 2 := Real.log_pos (by norm_num)
  simp only [compute_overall_entropy, spec_overall_entropy, model_entropy]
  intro h
  have hhalf : ((1 : ℕ) : ℝ) ^ 2 / ((2 : ℕ) : ℝ) = 2⁻¹ := by norm_num
  rw [hhalf, Real.log_inv] at h
  have : Real.log 2 = 0 := by linarith
  linarith

/-! ## Hastings correction (claim C6) -/

/-- Dense branch of `compute_Hastings_correction`
(`partition_baseline_support.py` lines 538-553).  `t, count` come from
`np.unique` / `np.bincount` over the concatenated neighbour-block arrays:
the distinct neighbour blocks (the union of the supports of `cout` and
`cin`) with summed weights `cout t + cin t`.  `M_r_row`, `M_r_col` are the
new row/column `r` from the edge-count update, `d_new` the candidate total
degrees.  Returns `p_backward / p_forward`. -/
noncomputable def compute_Hastings_correction (M : Fin B → Fin B → ℤ)
    (d : Fin B → ℤ) (cout cin : Fin B → ℤ) (s : Fin B)
    (M_r_row M_r_col : Fin B → ℤ) (d_new : Fin B → ℤ) : ℝ :=
  (∑ t ∈ Finset.univ.filter (fun t => cout t ≠ 0 ∨ cin t ≠ 0),
      ((cout t + cin t : ℤ) : ℝ) * ((M_r_row t + M_r_col t + 1 : ℤ) : ℝ)
        / ((d_new t : ℝ) + (B : ℝ)))
    / (∑ t ∈ Finset.univ.filter (fun t => cout t ≠ 0 ∨ cin t ≠ 0),
      ((cout t + cin t : ℤ) : ℝ) * ((M t s + M s t + 1 : ℤ) : ℝ)
        / ((d t : ℝ) + (B : ℝ)))

/-- Modelled from the spec:
`p_forward ∝ Σ_t count[t]·(M[t,s] + M[s,t] + 1)/(d[t] + B)` with the sum over
all blocks (blocks that are not neighbours have `count[t] = 0` and contribute
nothing). -/
noncomputable def spec_p_forward (M : Fin B → Fin B → ℤ) (d : Fin B → ℤ)
    (cout cin : Fin B → ℤ) (s : Fin B) : ℝ :=
  ∑ t, ((cout t + cin t : ℤ) : ℝ) * ((M t s + M s t + 1 : ℤ) : ℝ)
    / ((d t : ℝ) + (B : ℝ))

/-- Modelled from the spec:
`p_backward ∝ Σ_t count[t]·(M⁺[t,r] + M⁺[r,t] + 1)/(d⁺[t] + B)` with the new
row/column `r` and the candidate degrees. -/
noncomputable def spec_p_backward (M_r_row M_r_col : Fin B → ℤ)
    (d_new : Fin B → ℤ) (cout cin : Fin B → ℤ) : ℝ :=
  ∑ t, ((cout t + cin t : ℤ) : ℝ) * ((M_r_row t + M_r_col t + 1 : ℤ) : ℝ)
    / ((d_new t : ℝ) + (B : ℝ))

/-- Candidate selection of the block-merge scoring (`block_merge.py` lines
60-62): a proposal replaces the current best exactly when its delta entropy
is smaller; no Hastings correction enters the comparison. -/
noncomputable def merge_candidate_select (proposal : ℕ) (dE : ℝ)
    (best_proposal : ℕ) (best_dE : ℝ) : ℕ × ℝ :=
  if dE < best_dE then (proposal, dE) else (best_proposal, best_dE)

/-- Claim C6.  `compute_Hastings_correction` returns exactly
`p_backward / p_forward` for the spec's formulas (summed over all distinct
neighbour blocks with aggregated counts), and the merge (agglomerative)
scoring tracks only the minimum delta entropy — no Hastings correction is
applied to merge moves. -/
theorem compute_Hastings_correction_spec (M : Fin B → Fin B → ℤ)
    (d : Fin B → ℤ) (cout cin : Fin B → ℤ) (s : Fin B)
    (M_r_row M_r_col : Fin B → ℤ) (d_new : Fin B → ℤ) :
    compute_Hastings_correction M d cout cin s M_r_row M_r_col d_new
      = spec_p_backward M_r_row M_r_col d_new cout cin
        / spec_p_forward M d cout cin s ∧
    ∀ (proposal best_proposal : ℕ) (dE best_dE : ℝ),
      (merge_candidate_select proposal dE best_proposal best_dE).2
        = min dE best_dE := by
  constructor
  · have hb : (∑ t ∈ Finset.univ.filter (fun t => cout t ≠ 0 ∨ cin t ≠ 0),
        ((cout t + cin t : ℤ) : ℝ) * ((M_r_row t + M_r_col t + 1 : ℤ) : ℝ)
          / ((d_new t : ℝ) + (B : ℝ)))
        = spec_p_backward M_r_row M_r_col d_new cout cin := by
      apply Finset.sum_filter_of_ne
      intro t _ ht
      by_contra hc
      push_neg at hc
      apply ht
      rw [hc.1, hc.2]
      norm_num
    have hf : (∑ t ∈ Finset.univ.filter (fun t => cout t ≠ 0 ∨ cin t ≠ 0),
        ((cout t + cin t : ℤ) : ℝ) * ((M t s + M s t + 1 : ℤ) : ℝ)
          / ((d t : ℝ) + (B : ℝ)))
        = spec_p_forward M d cout cin s := by
      apply Finset.sum_filter_of_ne
      intro t _ ht
      by_contra hc
      push_neg at hc
      apply ht
      rw [hc.1, hc.2]
      norm_num
    rw [compute_Hastings_correction, hb, hf]
  · intro proposal best_proposal dE best_dE
    unfold merge_candidate_select
    by_cases h : dE < best_dE
    · rw [if_pos h]
      exact (min_eq_left h.le).symm
    · rw [if_neg h]
      exact (min_eq_right (not_lt.mp h)).symm

/-! ## Delta entropy (claims C3 and C9) -/

/-- Dense branch of `compute_delta_entropy` (`partition_baseline_support.py`
lines 599-650): sum `x·ln(x/(d_out·d_in))` over the four new and four old
rows/columns, with the indices `r` and `s` removed from the column sums to
avoid double counting, new terms subtracted and old terms added.  The code
keeps only nonzero entries; in `ℝ` zero entries contribute `0`, so the sums
over all indices have the same value. -/
noncomputable def compute_delta_entropy (M : Fin B → Fin B → ℤ)
    (dout din : Fin B → ℤ) (r s : Fin B) (u : EdgeCountUpdates B)
    (dout_new din_new : Fin B → ℤ) : ℝ :=
  - (∑ j, entry_term (u.block_row j) (dout_new r) (din_new j))
  - (∑ j, entry_term (u.proposal_row j) (dout_new s) (din_new j))
  - (∑ i ∈ Finset.univ \ {r, s},
      entry_term (u.block_col i) (dout_new i) (din_new r))
  - (∑ i ∈ Finset.univ \ {r, s},
      entry_term (u.proposal_col i) (dout_new i) (din_new s))
  + (∑ j, entry_term (M r j) (dout r) (din j))
  + (∑ j, entry_term (M s j) (dout s) (din j))
  + (∑ i ∈ Finset.univ \ {r, s}, entry_term (M i r) (dout i) (din r))
  + (∑ i ∈ Finset.univ \ {r, s}, entry_term (M i s) (dout i) (din s))

/-- With no self-loop, row `r` of the committed matrix is the kernel's
`block_row` (at `(r,s)` the committed entry comes from `proposal_col`, which
agrees with `block_row` exactly when `cself = 0`). -/
lemma moved_matrix_row_r (M : Fin B → Fin B → ℤ) (r s : Fin B)
    (cout cin : Fin B → ℤ) (hrs : r ≠ s) (j : Fin B) :
    moved_matrix M r s cout cin 0 r j
      = (compute_new_rows_cols_interblock_edge_count_matrix
          M r s cout cin 0).block_row j := by
  by_cases hj : j = s
  · subst hj
    simp [moved_matrix, update_partition_matrix,
      compute_new_rows_cols_interblock_edge_count_matrix, hrs, Ne.symm hrs]
    try ring
  · by_cases hj2 : j = r
    · subst hj2
      simp [moved_matrix, update_partition_matrix,
        compute_new_rows_cols_interblock_edge_count_matrix, hrs, hj,
        Ne.symm hrs]
      try ring
    · simp [moved_matrix, update_partition_matrix,
        compute_new_rows_cols_interblock_edge_count_matrix, hrs, hj, hj2,
        Ne.symm hrs]
      try ring

/-- With no self-loop, row `s` of the committed matrix is the kernel's
`proposal_row` (at `(s,r)` the committed entry comes from `block_col`, which
agrees with `proposal_row` exactly when `cself = 0`). -/
lemma moved_matrix_row_s (M : Fin B → Fin B → ℤ) (r s : Fin B)
    (cout cin : Fin B → ℤ) (hrs : r ≠ s) (j : Fin B) :
    moved_matrix M r s cout cin 0 s j
      = (compute_new_rows_cols_interblock_edge_count_matrix
          M r s cout cin 0).proposal_row j := by
  by_cases hj : j = s
  · subst hj
    simp [moved_matrix, update_partition_matrix,
      compute_new_rows_cols_interblock_edge_count_matrix, hrs, Ne.symm hrs]
    try ring
  · by_cases hj2 : j = r
    · subst hj2
      simp [moved_matrix, update_partition_matrix,
        compute_new_rows_cols_interblock_edge_count_matrix, hrs, hj,
        Ne.symm hrs]
      try ring
    · simp [moved_matrix, update_partition_matrix,
        compute_new_rows_cols_interblock_edge_count_matrix, hrs, hj, hj2,
        Ne.symm hrs]
      try ring

/-- Column `r` of the committed matrix is the kernel's `block_col`
(columns are written last, so this holds for every `cself`). -/
lemma moved_matrix_col_r (M : Fin B → Fin B → ℤ) (r s : Fin B)
    (cout cin : Fin B → ℤ) (cself : ℤ) (hrs : r ≠ s) (i : Fin B) :
    moved_matrix M r s cout cin cself i r
      = (compute_new_rows_cols_interblock_edge_count_matrix
          M r s cout cin cself).block_col i := by
  simp [moved_matrix, update_partition_matrix, hrs]

/-- Column `s` of the committed matrix is the kernel's `proposal_col`. -/
lemma moved_matrix_col_s (M : Fin B → Fin B → ℤ) (r s : Fin B)
    (cout cin : Fin B → ℤ) (cself : ℤ) (i : Fin B) :
    moved_matrix M r s cout cin cself i s
      = (compute_new_rows_cols_interblock_edge_count_matrix
          M r s cout cin cself).proposal_col i := by
  simp [moved_matrix, update_partition_matrix]

lemma compute_new_block_degree_other (d : Fin B → ℤ) (r s : Fin B) (k : ℤ)
    {i : Fin B} (h1 : i ≠ r) (h2 : i ≠ s) :
    compute_new_block_degree d r s k i = d i := by
  simp [compute_new_block_degree, h1, h2]

/-- Claim C3 (amended: the moved vertex has no self-loop, `count_self = 0`;
then the equality is exact, which is in particular within every positive
relative tolerance).  For a vertex move `r ≠ s` with update vectors from the
vertex-move kernel and candidate degrees from `compute_new_block_degrees`,
`compute_delta_entropy` equals
`S_overall(partition with the update applied) − S_overall(current partition)`
exactly.  With a self-loop the committed corner entries `(r,s)` and `(s,r)`
differ from the row vectors the delta-entropy uses, and the 1e-6 tolerance
can be exceeded (see the counterexample). -/
theorem compute_delta_entropy_exact (M : Fin B → Fin B → ℤ)
    (dout din : Fin B → ℤ) (r s : Fin B) (cout cin : Fin B → ℤ)
    (cself kout kin : ℤ) (N E : ℕ)
    (hrs : r ≠ s) (hc : cself = 0)
    (hko : kout = ∑ j, cout j) (hki : kin = ∑ i, cin i) :
    compute_delta_entropy M dout din r s
        (compute_new_rows_cols_interblock_edge_count_matrix M r s cout cin cself)
        (compute_new_block_degree dout r s kout)
        (compute_new_block_degree din r s kin)
      = compute_overall_entropy (moved_matrix M r s cout cin cself)
          (compute_new_block_degree dout r s kout)
          (compute_new_block_degree din r s kin) N E
        - compute_overall_entropy M dout din N E := by
  subst hc
  set u := compute_new_rows_cols_interblock_edge_count_matrix M r s cout cin 0
    with hu
  set M' := moved_matrix M r s cout cin 0 with hM'
  set do' := compute_new_block_degree dout r s kout with hdo'
  set di' := compute_new_block_degree din r s kin with hdi'
  have hoverall : compute_overall_entropy M' do' di' N E
      - compute_overall_entropy M dout din N E
      = (∑ i, ∑ j, entry_term (M i j) (dout i) (din j))
        - (∑ i, ∑ j, entry_term (M' i j) (do' i) (di' j)) := by
    simp only [compute_overall_entropy, data_entropy]
    ring
  rw [hoverall]
  have expand : ∀ (A : Fin B → Fin B → ℤ) (u1 u2 : Fin B → ℤ),
      (∑ i, ∑ j, entry_term (A i j) (u1 i) (u2 j))
      = (∑ j, entry_term (A r j) (u1 r) (u2 j))
        + (∑ j, entry_term (A s j) (u1 s) (u2 j))
        + ((∑ i ∈ Finset.univ \ {r, s}, entry_term (A i r) (u1 i) (u2 r))
          + (∑ i ∈ Finset.univ \ {r, s}, entry_term (A i s) (u1 i) (u2 s))
          + (∑ i ∈ Finset.univ \ {r, s}, ∑ j ∈ Finset.univ \ {r, s},
              entry_term (A i j) (u1 i) (u2 j))) := by
    intro A u1 u2
    rw [sum_split hrs (fun i => ∑ j, entry_term (A i j) (u1 i) (u2 j))]
    congr 1
    rw [Finset.sum_congr rfl (fun i _ =>
      sum_split hrs (fun j => entry_term (A i j) (u1 i) (u2 j))),
      Finset.sum_add_distrib, Finset.sum_add_distrib]
  rw [expand M dout din, expand M' do' di']
  have hrow_r : (∑ j, entry_term (M' r j) (do' r) (di' j))
      = ∑ j, entry_term (u.block_row j) (do' r) (di' j) :=
    Finset.sum_congr rfl fun j _ => by
      rw [hM', moved_matrix_row_r M r s cout cin hrs j]
  have hrow_s : (∑ j, entry_term (M' s j) (do' s) (di' j))
      = ∑ j, entry_term (u.proposal_row j) (do' s) (di' j) :=
    Finset.sum_congr rfl fun j _ => by
      rw [hM', moved_matrix_row_s M r s cout cin hrs j]
  have hcol_r : (∑ i ∈ Finset.univ \ {r, s},
        entry_term (M' i r) (do' i) (di' r))
      = ∑ i ∈ Finset.univ \ {r, s}, entry_term (u.block_col i) (do' i) (di' r) :=
    Finset.sum_congr rfl fun i _ => by
      rw [hM', moved_matrix_col_r M r s cout cin 0 hrs i]
  have hcol_s : (∑ i ∈ Finset.univ \ {r, s},
        entry_term (M' i s) (do' i) (di' s))
      = ∑ i ∈ Finset.univ \ {r, s},
          entry_term (u.proposal_col i) (do' i) (di' s) :=
    Finset.sum_congr rfl fun i _ => by
      rw [hM', moved_matrix_col_s M r s cout cin 0 i]
  have hrest : (∑ i ∈ Finset.univ \ {r, s}, ∑ j ∈ Finset.univ \ {r, s},
        entry_term (M' i j) (do' i) (di' j))
      = ∑ i ∈ Finset.univ \ {r, s}, ∑ j ∈ Finset.univ \ {r, s},
          entry_term (M i j) (dout i) (din j) := by
    refine Finset.sum_congr rfl fun i hi => Finset.sum_congr rfl fun j hj => ?_
    obtain ⟨hi1, hi2⟩ := mem_diff_pair hi
    obtain ⟨hj1, hj2⟩ := mem_diff_pair hj
    rw [hdo', compute_new_block_degree_other dout r s kout hi1 hi2,
      hdi', compute_new_block_degree_other din r s kin hj1 hj2, hM']
    congr 1
    simp [moved_matrix, update_partition_matrix, hi1, hi2, hj1, hj2]
  rw [hrow_r, hrow_s, hcol_r, hcol_s, hrest]
  simp only [compute_delta_entropy]
  ring

/-- Witness for the amended claim C3: the moved vertex has a single out-edge
(no self-loop) in the two-block partition `M = [[0,1],[0,0]]`. -/
theorem compute_delta_entropy_exact_witness :
    compute_delta_entropy ![![0, 1], ![0, 0]] ![1, 0] ![0, 1] 0 1
        (compute_new_rows_cols_interblock_edge_count_matrix
          ![![0, 1], ![0, 0]] 0 1 ![0, 1] ![0, 0] 0)
        (compute_new_block_degree ![1, 0] 0 1 1)
        (compute_new_block_degree ![0, 1] 0 1 0)
      = compute_overall_entropy
          (moved_matrix ![![0, 1], ![0, 0]] 0 1 ![0, 1] ![0, 0] 0)
          (compute_new_block_degree ![1, 0] 0 1 1)
          (compute_new_block_degree ![0, 1] 0 1 0) 2 1
        - compute_overall_entropy ![![0, 1], ![0, 0]] ![1, 0] ![0, 1] 2 1 :=
  compute_delta_entropy_exact ![![0, 1], ![0, 0]] ![1, 0] ![0, 1] 0 1
    ![0, 1] ![0, 0] 0 1 0 2 1 (by decide) rfl (by decide) (by decide)

/-- Concrete C3 counterexample data: block `0` holds a vertex `ni` with a
self-loop of weight `2` and out-edges of total weight `2` into block `1`,
plus further vertices carrying intra-block weight `2` and weight `2` into
block `1`; block `1` has intra-block weight `2` and weight `2` into block
`0` (none of it incident to `ni`).  So `M = [[4,2],[2,2]]`,
`count_out = [2,2]`, `count_in = [2,0]`, `count_self = 2`, `k_out = 4`,
`k_in = 2`; `ni` moves from block `0` to block `1`. -/
def c3M : Fin 2 → Fin 2 → ℤ := ![![4, 2], ![2, 2]]

def c3dout : Fin 2 → ℤ := ![6, 4]

def c3din : Fin 2 → ℤ := ![6, 4]

def c3cout : Fin 2 → ℤ := ![2, 2]

def c3cin : Fin 2 → ℤ := ![2, 0]

lemma entry_term_zero (u v : ℤ) : entry_term 0 u v = 0 := by
  simp [entry_term]

lemma log_six : Real.log 6 = Real.log 2 + Real.log 3 := by
  rw [show (6 : ℝ) = 2 * 3 by norm_num,
    Real.log_mul (by norm_num) (by norm_num)]

lemma log_eight : Real.log 8 = 3 * Real.log 2 := by
  rw [show (8 : ℝ) = 2 ^ 3 by norm_num, Real.log_pow]
  push_cast
  ring

lemma log_nine : Real.log 9 = 2 * Real.log 3 := by
  rw [show (9 : ℝ) = 3 ^ 2 by norm_num, Real.log_pow]
  push_cast
  ring

lemma log_twelve : Real.log 12 = 2 * Real.log 2 + Real.log 3 := by
  rw [show (12 : ℝ) = 2 ^ 2 * 3 by norm_num,
    Real.log_mul (by norm_num) (by norm_num), Real.log_pow]
  push_cast
  ring

lemma log_sixteen : Real.log 16 = 4 * Real.log 2 := by
  rw [show (16 : ℝ) = 2 ^ 4 by norm_num, Real.log_pow]
  push_cast
  ring

lemma entry_term_2_2_6 :
    entry_term 2 2 6 = -(2 * Real.log 2 + 2 * Real.log 3) := by
  unfold entry_term
  push_cast
  rw [show (2 : ℝ) / (2 * 6) = (6 : ℝ)⁻¹ by norm_num, Real.log_inv, log_six]
  ring

lemma entry_term_2_8_4 : entry_term 2 8 4 = -8 * Real.log 2 := by
  unfold entry_term
  push_cast
  rw [show (2 : ℝ) / (8 * 4) = (16 : ℝ)⁻¹ by norm_num, Real.log_inv,
    log_sixteen]
  ring

lemma entry_term_6_8_6 : entry_term 6 8 6 = -18 * Real.log 2 := by
  unfold entry_term
  push_cast
  rw [show (6 : ℝ) / (8 * 6) = (8 : ℝ)⁻¹ by norm_num, Real.log_inv, log_eight]
  ring

lemma entry_term_4_6_6 : entry_term 4 6 6 = -8 * Real.log 3 := by
  unfold entry_term
  push_cast
  rw [show (4 : ℝ) / (6 * 6) = (9 : ℝ)⁻¹ by norm_num, Real.log_inv, log_nine]
  ring

lemma entry_term_2_6_4 :
    entry_term 2 6 4 = -(4 * Real.log 2 + 2 * Real.log 3) := by
  unfold entry_term
  push_cast
  rw [show (2 : ℝ) / (6 * 4) = (12 : ℝ)⁻¹ by norm_num, Real.log_inv,
    log_twelve]
  ring

lemma entry_term_2_4_6 :
    entry_term 2 4 6 = -(4 * Real.log 2 + 2 * Real.log 3) := by
  unfold entry_term
  push_cast
  rw [show (2 : ℝ) / (4 * 6) = (12 : ℝ)⁻¹ by norm_num, Real.log_inv,
    log_twelve]
  ring

lemma entry_term_2_4_4 : entry_term 2 4 4 = -6 * Real.log 2 := by
  unfold entry_term
  push_cast
  rw [show (2 : ℝ) / (4 * 4) = (8 : ℝ)⁻¹ by norm_num, Real.log_inv, log_eight]
  ring

lemma entry_term_4_8_4 : entry_term 4 8 4 = -12 * Real.log 2 := by
  unfold entry_term
  push_cast
  rw [show (4 : ℝ) / (8 * 4) = (8 : ℝ)⁻¹ by norm_num, Real.log_inv, log_eight]
  ring

/-- Delta-entropy value at the C3 counterexample instance. -/
lemma c3_delta_value :
    compute_delta_entropy c3M c3dout c3din 0 1
        (compute_new_rows_cols_interblock_edge_count_matrix
          c3M 0 1 c3cout c3cin 2)
        (compute_new_block_degree c3dout 0 1 4)
        (compute_new_block_degree c3din 0 1 2)
      = 14 * Real.log 2 - 10 * Real.log 3 := by
  have hbr : (compute_new_rows_cols_interblock_edge_count_matrix
      c3M 0 1 c3cout c3cin 2).block_row = ![(0 : ℤ), 2] := by decide
  have hpr : (compute_new_rows_cols_interblock_edge_count_matrix
      c3M 0 1 c3cout c3cin 2).proposal_row = ![(2 : ℤ), 6] := by decide
  have hdo : compute_new_block_degree c3dout 0 1 4 = ![(2 : ℤ), 8] := by
    decide
  have hdi : compute_new_block_degree c3din 0 1 2 = ![(4 : ℤ), 6] := by decide
  have hempty : (Finset.univ \ ({0, 1} : Finset (Fin 2)))
      = (∅ : Finset (Fin 2)) := by decide
  simp only [compute_delta_entropy, hbr, hpr, hdo, hdi, hempty,
    Finset.sum_empty, Fin.sum_univ_two]
  norm_num [c3M, c3dout, c3din]
  rw [entry_term_zero, entry_term_2_2_6, entry_term_2_8_4, entry_term_6_8_6,
    entry_term_4_6_6, entry_term_2_6_4, entry_term_2_4_6, entry_term_2_4_4]
  ring

/-- Overall-entropy difference at the C3 counterexample instance. -/
lemma c3_overall_difference :
    compute_overall_entropy (moved_matrix c3M 0 1 c3cout c3cin 2)
        (compute_new_block_degree c3dout 0 1 4)
        (compute_new_block_degree c3din 0 1 2) 6 10
      - compute_overall_entropy c3M c3dout c3din 6 10
      = 16 * Real.log 2 - 12 * Real.log 3 := by
  have hmm : moved_matrix c3M 0 1 c3cout c3cin 2
      = ![![(0 : ℤ), 0], ![4, 6]] := by decide
  have hdo : compute_new_block_degree c3dout 0 1 4 = ![(2 : ℤ), 8] := by
    decide
  have hdi : compute_new_block_degree c3din 0 1 2 = ![(4 : ℤ), 6] := by decide
  simp only [compute_overall_entropy, data_entropy, hmm, hdo, hdi,
    Fin.sum_univ_two]
  norm_num [c3M, c3dout, c3din]
  rw [entry_term_zero, entry_term_zero, entry_term_4_8_4, entry_term_6_8_6,
    entry_term_4_6_6, entry_term_2_6_4, entry_term_2_4_6, entry_term_2_4_4]
  ring

/-- Claim C3 as stated is false: at the concrete self-loop instance (a valid
partition, update vectors from the vertex-move kernel, candidate degrees from
`compute_new_block_degrees`, `r ≠ s`), `compute_delta_entropy` misses
`S_overall(updated) − S_overall(current)` by `2·ln(3/2) ≈ 0.81`, far beyond
the claimed `1e-6` relative error. -/
theorem compute_delta_entropy_tolerance_counterexample :
    (∀ i j, 0 ≤ c3M i j) ∧
    (∀ i, c3dout i = ∑ j, c3M i j) ∧
    (∀ j, c3din j = ∑ i, c3M i j) ∧
    ((4 : ℤ) = ∑ j, c3cout j) ∧
    ((2 : ℤ) = ∑ i, c3cin i) ∧
    ¬ (|compute_delta_entropy c3M c3dout c3din 0 1
          (compute_new_rows_cols_interblock_edge_count_matrix
            c3M 0 1 c3cout c3cin 2)
          (compute_new_block_degree c3dout 0 1 4)
          (compute_new_block_degree c3din 0 1 2)
        - (compute_overall_entropy (moved_matrix c3M 0 1 c3cout c3cin 2)
            (compute_new_block_degree c3dout 0 1 4)
            (compute_new_block_degree c3din 0 1 2) 6 10
          - compute_overall_entropy c3M c3dout c3din 6 10)|
      ≤ (1 / 1000000)
        * |compute_overall_entropy (moved_matrix c3M 0 1 c3cout c3cin 2)
            (compute_new_block_degree c3dout 0 1 4)
            (compute_new_block_degree c3din 0 1 2) 6 10
          - compute_overall_entropy c3M c3dout c3din 6 10|) := by
  refine ⟨by decide, by decide, by decide, by decide, by decide, ?_⟩
  rw [c3_delta_value, c3_overall_difference]
  have h1 : 0 < Real.log 2 := Real.log_pos (by norm_num)
  have h2 : Real.log 2 ≤ 1 := by
    have := Real.log_le_sub_one_of_pos (by norm_num : (0 : ℝ) < 2)
    linarith
  have h3 : 0 < Real.log 3 := Real.log_pos (by norm_num)
  have h4 : Real.log 3 ≤ 2 := by
    have := Real.log_le_sub_one_of_pos (by norm_num : (0 : ℝ) < 3)
    linarith
  have h5 : 1 / 3 ≤ Real.log 3 - Real.log 2 := by
    have hd : Real.log ((2 : ℝ) / 3) = Real.log 2 - Real.log 3 :=
      Real.log_div (by norm_num) (by norm_num)
    have := Real.log_le_sub_one_of_pos (by norm_num : (0 : ℝ) < 2 / 3)
    rw [hd] at this
    linarith
  have habs1 : |14 * Real.log 2 - 10 * Real.log 3
      - (16 * Real.log 2 - 12 * Real.log 3)|
      = 2 * Real.log 3 - 2 * Real.log 2 := by
    rw [show 14 * Real.log 2 - 10 * Real.log 3
        - (16 * Real.log 2 - 12 * Real.log 3)
        = 2 * Real.log 3 - 2 * Real.log 2 by ring]
    exact abs_of_nonneg (by linarith)
  have habs2 : |16 * Real.log 2 - 12 * Real.log 3| ≤ 40 := by
    rw [abs_le]
    constructor <;> linarith
  intro h
  rw [habs1] at h
  have : (1 / 1000000 : ℝ) * |16 * Real.log 2 - 12 * Real.log 3|
      ≤ 1 / 1000000 * 40 := by linarith
  linarith

/-- The divisions actually performed by `compute_delta_entropy` (lines
640-650): each nonzero entry of a new/old row (column) is divided by the
matching out-degree and in-degree.  This predicate says every such
denominator is nonzero. -/
def delta_entropy_denominators_ok (M : Fin B → Fin B → ℤ)
    (dout din : Fin B → ℤ) (r s : Fin B) (u : EdgeCountUpdates B)
    (dout_new din_new : Fin B → ℤ) : Prop :=
  (∀ j, u.block_row j ≠ 0 → dout_new r ≠ 0 ∧ din_new j ≠ 0) ∧
  (∀ j, u.proposal_row j ≠ 0 → dout_new s ≠ 0 ∧ din_new j ≠ 0) ∧
  (∀ i, i ≠ r → i ≠ s →
    u.block_col i ≠ 0 → dout_new i ≠ 0 ∧ din_new r ≠ 0) ∧
  (∀ i, i ≠ r → i ≠ s →
    u.proposal_col i ≠ 0 → dout_new i ≠ 0 ∧ din_new s ≠ 0) ∧
  (∀ j, M r j ≠ 0 → dout r ≠ 0 ∧ din j ≠ 0) ∧
  (∀ j, M s j ≠ 0 → dout s ≠ 0 ∧ din j ≠ 0) ∧
  (∀ i, i ≠ r → i ≠ s → M i r ≠ 0 → dout i ≠ 0 ∧ din r ≠ 0) ∧
  (∀ i, i ≠ r → i ≠ s → M i s ≠ 0 → dout i ≠ 0 ∧ din s ≠ 0)

set_option synthInstance.maxSize 512 in
set_option synthInstance.maxHeartbeats 1000000 in
instance delta_entropy_denominators_ok_decidable (M : Fin B → Fin B → ℤ)
    (dout din : Fin B → ℤ) (r s : Fin B) (u : EdgeCountUpdates B)
    (dout_new din_new : Fin B → ℤ) :
    Decidable (delta_entropy_denominators_ok M dout din r s u
      dout_new din_new) := by
  unfold delta_entropy_denominators_ok
  infer_instance

/-- `compute_delta_entropy` with IEEE-exceptional outcomes made explicit: a
division of a nonzero entry by a zero degree produces `inf`/`NaN` in the
float code (there is no guard in lines 640-650); the model returns `none` in
that case and the plain unguarded sum otherwise. -/
noncomputable def compute_delta_entropy_checked (M : Fin B → Fin B → ℤ)
    (dout din : Fin B → ℤ) (r s : Fin B) (u : EdgeCountUpdates B)
    (dout_new din_new : Fin B → ℤ) : Option ℝ :=
  if delta_entropy_denominators_ok M dout din r s u dout_new din_new
  then some (compute_delta_entropy M dout din r s u dout_new din_new)
  else none

/-- Claim C9 (amended).  The delta-entropy divisions are not guarded: when
every denominator actually used is nonzero the kernel returns the plain
quotient formula, and when a zero block degree appears in a used denominator
the evaluation produces no finite result (`none`, i.e. `inf`/`NaN` in the
float code) — a zero-degree division is not converted to a `0` term. -/
theorem compute_delta_entropy_unguarded (M : Fin B → Fin B → ℤ)
    (dout din : Fin B → ℤ) (r s : Fin B) (u : EdgeCountUpdates B)
    (dout_new din_new : Fin B → ℤ) :
    (delta_entropy_denominators_ok M dout din r s u dout_new din_new →
      compute_delta_entropy_checked M dout din r s u dout_new din_new
        = some (compute_delta_entropy M dout din r s u dout_new din_new)) ∧
    (¬ delta_entropy_denominators_ok M dout din r s u dout_new din_new →
      compute_delta_entropy_checked M dout din r s u dout_new din_new
        = none) := by
  constructor <;> intro h <;> simp [compute_delta_entropy_checked, h]

/-- Claim C9 as stated is false: at the kernel-produced input of the
self-loop move (`M = [[1,0],[0,0]]`, vertex with self-loop weight `1` moving
from block `0` to block `1`) the new out-degree of block `0` is `0` while the
new row `0` has a nonzero entry, and the kernel returns no finite result
(`none`) instead of a finite value with that term contributing `0`. -/
theorem compute_delta_entropy_zero_degree_counterexample :
    compute_new_block_degree ![(1 : ℤ), 0] 0 1 1 0 = 0 ∧
    (compute_new_rows_cols_interblock_edge_count_matrix
      ![![(1 : ℤ), 0], ![0, 0]] 0 1 ![1, 0] ![1, 0] 1).block_row 0 ≠ 0 ∧
    compute_delta_entropy_checked ![![(1 : ℤ), 0], ![0, 0]] ![1, 0] ![1, 0] 0 1
      (compute_new_rows_cols_interblock_edge_count_matrix
        ![![(1 : ℤ), 0], ![0, 0]] 0 1 ![1, 0] ![1, 0] 1)
      (compute_new_block_degree ![1, 0] 0 1 1)
      (compute_new_block_degree ![1, 0] 0 1 1) = none := by
  refine ⟨by decide, by decide, ?_⟩
  have hok : ¬ delta_entropy_denominators_ok
      ![![(1 : ℤ), 0], ![0, 0]] ![1, 0] ![1, 0] 0 1
      (compute_new_rows_cols_interblock_edge_count_matrix
        ![![(1 : ℤ), 0], ![0, 0]] 0 1 ![1, 0] ![1, 0] 1)
      (compute_new_block_degree ![1, 0] 0 1 1)
      (compute_new_block_degree ![1, 0] 0 1 1) := by decide
  simp [compute_delta_entropy_checked, hok]

/-- Witness for the amended claim C9: a move with all used denominators
nonzero returns the plain sum. -/
theorem compute_delta_entropy_unguarded_witness :
    (delta_entropy_denominators_ok ![![(0 : ℤ), 1], ![1, 0]] ![1, 1] ![1, 1]
        0 1
        (compute_new_rows_cols_interblock_edge_count_matrix
          ![![(0 : ℤ), 1], ![1, 0]] 0 1 ![0, 1] ![0, 1] 0)
        (compute_new_block_degree ![1, 1] 0 1 1)
        (compute_new_block_degree ![1, 1] 0 1 1) →
      compute_delta_entropy_checked ![![(0 : ℤ), 1], ![1, 0]] ![1, 1] ![1, 1]
          0 1
          (compute_new_rows_cols_interblock_edge_count_matrix
            ![![(0 : ℤ), 1], ![1, 0]] 0 1 ![0, 1] ![0, 1] 0)
          (compute_new_block_degree ![1, 1] 0 1 1)
          (compute_new_block_degree ![1, 1] 0 1 1)
        = some (compute_delta_entropy ![![(0 : ℤ), 1], ![1, 0]] ![1, 1] ![1, 1]
          0 1
          (compute_new_rows_cols_interblock_edge_count_matrix
            ![![(0 : ℤ), 1], ![1, 0]] 0 1 ![0, 1] ![0, 1] 0)
          (compute_new_block_degree ![1, 1] 0 1 1)
          (compute_new_block_degree ![1, 1] 0 1 1))) ∧
    (¬ delta_entropy_denominators_ok ![![(0 : ℤ), 1], ![1, 0]] ![1, 1] ![1, 1]
        0 1
        (compute_new_rows_cols_interblock_edge_count_matrix
          ![![(0 : ℤ), 1], ![1, 0]] 0 1 ![0, 1] ![0, 1] 0)
        (compute_new_block_degree ![1, 1] 0 1 1)
        (compute_new_block_degree ![1, 1] 0 1 1) →
      compute_delta_entropy_checked ![![(0 : ℤ), 1], ![1, 0]] ![1, 1] ![1, 1]
          0 1
          (compute_new_rows_cols_interblock_edge_count_matrix
            ![![(0 : ℤ), 1], ![1, 0]] 0 1 ![0, 1] ![0, 1] 0)
          (compute_new_block_degree ![1, 1] 0 1 1)
          (compute_new_block_degree ![1, 1] 0 1 1) = none) :=
  compute_delta_entropy_unguarded ![![(0 : ℤ), 1], ![1, 0]] ![1, 1] ![1, 1]
    0 1
    (compute_new_rows_cols_interblock_edge_count_matrix
      ![![(0 : ℤ), 1], ![1, 0]] 0 1 ![0, 1] ![0, 1] 0)
    (compute_new_block_degree ![1, 1] 0 1 1)
    (compute_new_block_degree ![1, 1] 0 1 1)

/-! ## Preparing the next number of blocks (claim C8) -/

/-- `np.round`: round half to even (banker's rounding). -/
def np_round (q : ℚ) : ℤ :=
  if q - ⌊q⌋ < 1 / 2 then ⌊q⌋
  else if 1 / 2 < q - ⌊q⌋ then ⌊q⌋ + 1
  else if Even ⌊q⌋ then ⌊q⌋ else ⌊q⌋ + 1

/-- Branch logic of `prepare_for_partition_on_next_num_blocks`
(`partition_baseline_support.py` lines 905-943), on the triplet state after
`partition_triplet.update`: `t0`, `t1`, `t2` are the block counts of
`partitions[0]` (hi), `partitions[1]` (mid, always present), `partitions[2]`
(lo).  Returns `(num_blocks of the partition to work on next,
num_blocks_to_merge, optimal_B_found)`; `int(num_blocks * B_rate)` is floor
for the nonnegative values used, and the final `else` of the index selection
dereferences `partitions[0]` even when it is `None` (Python `AttributeError`,
modelled as `none`). -/
def prepare_for_partition_on_next_num_blocks (t0 : Option ℤ) (t1 : ℤ)
    (t2 : Option ℤ) (rate : ℚ) : Option (ℤ × ℤ × Bool) :=
  match t2 with
  | none =>
    some (t1, ⌊(t1 : ℚ) * rate⌋, decide (⌊(t1 : ℚ) * rate⌋ = 0))
  | some lo =>
    match t0 with
    | some hi =>
      if hi - lo = 2 then some (t1, 0, true)
      else if hi - t1 ≥ t1 - lo then
        some (hi, hi - (t1 + np_round ((hi - t1 : ℚ) * (618 / 1000))), false)
      else
        some (t1, t1 - (lo + np_round ((t1 - lo : ℚ) * (618 / 1000))), false)
    | none =>
      if t1 - lo = 1 then some (t1, 0, true)
      else if lo < t1 then
        some (t1, t1 - (lo + np_round ((t1 - lo : ℚ) * (618 / 1000))), false)
      else none

/-- Modelled from the (amended) spec: report the optimum exactly when all
three snapshots exist and `hi.B - lo.B ≤ 2`, or only `mid` and `lo` exist
and `mid.B - lo.B = 1`, or — before the LOWER snapshot exists —
`⌊mid.B · rate⌋ = 0`; otherwise, when the lower snapshot is missing schedule
`⌊mid.B · rate⌋` on a copy of `mid`, else schedule
`side_high.B - (side_low.B + round(0.618·(side_high.B - side_low.B)))` on a
copy of the high end of the larger side of the bracket. -/
def spec_prepare_next (t0 : Option ℤ) (t1 : ℤ) (t2 : Option ℤ) (rate : ℚ) :
    ℤ × ℤ × Bool :=
  let optimal : Bool :=
    match t0, t2 with
    | some hi, some lo => decide (hi - lo ≤ 2)
    | none, some lo => decide (t1 - lo = 1)
    | _, none => decide (⌊(t1 : ℚ) * rate⌋ = 0)
  if optimal then (t1, 0, true)
  else
    match t2 with
    | none => (t1, ⌊(t1 : ℚ) * rate⌋, false)
    | some lo =>
      match t0 with
      | none => (t1, t1 - (lo + np_round ((t1 - lo : ℚ) * (618 / 1000))), false)
      | some hi =>
        if hi - t1 ≥ t1 - lo then
          (hi, hi - (t1 + np_round ((hi - t1 : ℚ) * (618 / 1000))), false)
        else
          (t1, t1 - (lo + np_round ((t1 - lo : ℚ) * (618 / 1000))), false)

/-- Claim C8's reported-optimal condition as literally stated: tight bracket
with all three snapshots, two snapshots with `mid.B - lo.B = 1`, or — before
the UPPER snapshot exists — `⌊mid.B · rate⌋ = 0`.  ("Mid the best" is an
invariant of `PartitionTriplet.update`, not readable from the block counts;
at the counterexample input the first disjunct is vacuous, so it plays no
role.) -/
def claim_c8_optimal (t0 : Option ℤ) (t1 : ℤ) (t2 : Option ℤ)
    (rate : ℚ) : Prop :=
  (∃ hi lo, t0 = some hi ∧ t2 = some lo ∧ hi - lo ≤ 2) ∨
  (t0 = none ∧ ∃ lo, t2 = some lo ∧ t1 - lo = 1) ∨
  (t0 = none ∧ ⌊(t1 : ℚ) * rate⌋ = 0)

/-- Claim C8 (amended: in the third disjunct and the rate-scheduling branch,
the missing snapshot is the LOWER one, `partitions[2]`, not the upper one).
Under the triplet ordering invariants (`lo < mid < hi` where present),
`prepare_for_partition_on_next_num_blocks` returns exactly the behaviour
described by `spec_prepare_next`. -/
theorem prepare_for_partition_on_next_num_blocks_spec (t0 : Option ℤ)
    (t1 : ℤ) (t2 : Option ℤ) (rate : ℚ)
    (h0 : ∀ hi, t0 = some hi → t1 < hi)
    (h2 : ∀ lo, t2 = some lo → lo < t1) :
    prepare_for_partition_on_next_num_blocks t0 t1 t2 rate
      = some (spec_prepare_next t0 t1 t2 rate) := by
  cases t2 with
  | none =>
    simp only [prepare_for_partition_on_next_num_blocks, spec_prepare_next]
    by_cases hm : ⌊(t1 : ℚ) * rate⌋ = 0
    · simp [hm]
    · simp [hm]
  | some lo =>
    have hlo := h2 lo rfl
    cases t0 with
    | some hi =>
      have hhi := h0 hi rfl
      simp only [prepare_for_partition_on_next_num_blocks, spec_prepare_next]
      by_cases hd : hi - lo = 2
      · have hle : hi - lo ≤ 2 := le_of_eq hd
        simp [hd, hle]
      · have hgt : ¬ (hi - lo ≤ 2) := by omega
        simp only [if_neg hd, decide_eq_false hgt]
        by_cases hside : hi - t1 ≥ t1 - lo
        · simp [hside]
        · simp [hside]
    | none =>
      simp only [prepare_for_partition_on_next_num_blocks, spec_prepare_next]
      by_cases hd : t1 - lo = 1
      · simp [hd]
      · simp [hd, hlo]

/-- Claim C8 as stated is false: with no upper snapshot, `mid.B = 3`,
`lo.B = 1` and `rate = 1/4` we have `⌊mid.B · rate⌋ = 0`, so the claim's
third disjunct says the optimum is reported; the code instead runs the
golden-section branch (the rate branch triggers on a missing LOWER snapshot)
and schedules one more merge on `mid` without reporting the optimum. -/
theorem prepare_next_num_blocks_counterexample :
    prepare_for_partition_on_next_num_blocks none 3 (some 1) (1 / 4)
      = some (3, 1, false) ∧
    claim_c8_optimal none 3 (some 1) (1 / 4) := by
  constructor
  · have hfloor : (⌊((3 : ℤ) - 1 : ℚ) * (618 / 1000)⌋ : ℤ) = 1 := by
      norm_num
    simp only [prepare_for_partition_on_next_num_blocks]
    norm_num [np_round]
  · right
    right
    refine ⟨rfl, ?_⟩
    norm_num

/-- Witness for the amended claim C8 at the bracket `hi = 10`, `mid = 5`,
`lo = 2`, `rate = 1/2`. -/
theorem prepare_for_partition_on_next_num_blocks_spec_witness :
    prepare_for_partition_on_next_num_blocks (some 10) 5 (some 2) (1 / 2)
      = some (spec_prepare_next (some 10) 5 (some 2) (1 / 2)) :=
  prepare_for_partition_on_next_num_blocks_spec (some 10) 5 (some 2) (1 / 2)
    (by intro hi h; cases h; norm_num)
    (by intro lo h; cases h; norm_num)

end SBP
